import Mathlib

/-!
Verification of the variable-filtering core of the Surfer hierarchy browser
(`libsurfer/src/variable_filter.rs` and `libsurfer/src/hierarchy.rs`).

The Rust code delegates pattern matching to the external `regex` crate
(`RegexBuilder`, `regex::escape`), fuzzy matching to the external
`fuzzy_matcher` crate (`SkimMatcherV2`), and name ordering to the external
`numeric_sort` crate.  Those crates are modelled here at the level of their
documented behaviour:

* a small executable regular-expression engine (parser + Brzozowski
  derivatives) interprets the fragment of regex syntax that the code under
  verification can produce; patterns outside the supported fragment are
  treated as compilation failures, which the code maps to the constant-false
  predicate (its fail-closed path);
* `regex::escape` is modelled by `Surfer.escList`, escaping exactly the
  meta characters the crate escapes;
* the skim fuzzy matcher is modelled by its documented match-existence
  condition (the pattern occurs as a possibly non-contiguous subsequence);
* `numeric_sort::cmp` is modelled by tokenising a string into maximal digit
  runs (compared by numeric value) and non-digit runs (compared
  lexicographically by code point), comparing token lists lexicographically.

Everything is executable so that concrete inputs evaluate by `decide`.
-/

namespace Surfer

/-- Character comparison as performed by the regex engine: case-insensitive
matching (the `RegexBuilder::case_insensitive` flag) folds both characters
with `Char.toLower`. -/
def charEq (ci : Bool) (d c : Char) : Bool :=
  if ci then d.toLower == c.toLower else d == c

/-- Case folding of a character list, applied when a matcher runs
case-insensitively. -/
def foldCase (ci : Bool) (cs : List Char) : List Char :=
  if ci then cs.map Char.toLower else cs

namespace Rx

/-- Abstract syntax of the supported regular-expression fragment. -/
inductive Ast : Type where
  | emp : Ast
  | eps : Ast
  | ch (c : Char) : Ast
  | any : Ast
  | cat (a b : Ast) : Ast
  | alt (a b : Ast) : Ast
  | star (a : Ast) : Ast
  deriving DecidableEq

/-- Does the regex accept the empty word? -/
def nullable : Ast → Bool
  | .emp => false
  | .eps => true
  | .ch _ => false
  | .any => false
  | .cat a b => nullable a && nullable b
  | .alt a b => nullable a || nullable b
  | .star _ => true

/-- Brzozowski derivative with respect to one input character. -/
def deriv (ci : Bool) (a : Ast) (d : Char) : Ast :=
  match a with
  | .emp => .emp
  | .eps => .emp
  | .ch c => if charEq ci d c then .eps else .emp
  | .any => .eps
  | .cat a b =>
    if nullable a then .alt (.cat (deriv ci a d) b) (deriv ci b d)
    else .cat (deriv ci a d) b
  | .alt a b => .alt (deriv ci a d) (deriv ci b d)
  | .star a => .cat (deriv ci a d) (.star a)

/-- Does some prefix of `cs` match the regex `a`?  This is the anchored
match used for patterns beginning with the `^` anchor. -/
def matchesAtStart (ci : Bool) (a : Ast) (cs : List Char) : Bool :=
  nullable a ||
    match cs with
    | [] => false
    | d :: t => matchesAtStart ci (deriv ci a d) t

/-- Unanchored search, the semantics of the regex crate's `is_match`:
does some substring of `cs` match `a`? -/
def rsearch (ci : Bool) (a : Ast) (cs : List Char) : Bool :=
  matchesAtStart ci a cs ||
    match cs with
    | [] => false
    | _ :: t => rsearch ci a t

/-- The characters that `regex::escape` (through `regex-syntax`'s
meta-character set) prepends a backslash to. -/
def isMeta (c : Char) : Bool :=
  c == '\\' || c == '.' || c == '+' || c == '*' || c == '?' || c == '(' ||
  c == ')' || c == '|' || c == '[' || c == ']' || c == '{' || c == '}' ||
  c == '^' || c == '$' || c == '#' || c == '&' || c == '-' || c == '~'

/-- Characters that carry structure in the supported regex fragment and so
may not appear bare as a literal atom. -/
def isStructural (c : Char) : Bool :=
  c == '\\' || c == '.' || c == '+' || c == '*' || c == '?' || c == '(' ||
  c == ')' || c == '|' || c == '[' || c == ']' || c == '{' || c == '}' ||
  c == '^' || c == '$'

/-- Model of `regex::escape` on one character. -/
def escChar (c : Char) : List Char :=
  if isMeta c then ['\\', c] else [c]

/-- Model of `regex::escape`: escape every meta character. -/
def escList : List Char → List Char
  | [] => []
  | c :: cs => escChar c ++ escList cs

/-- Apply the postfix repetition operators following an atom. -/
def applyRepeats (a : Ast) : List Char → Ast × List Char
  | [] => (a, [])
  | c :: r =>
    if c = '*' then applyRepeats (.star a) r
    else if c = '+' then applyRepeats (.cat a (.star a)) r
    else if c = '?' then applyRepeats (.alt a .eps) r
    else (a, c :: r)

mutual

/-- Parse an alternation (`a|b|...`). -/
def parseAlt : Nat → List Char → Option (Ast × List Char)
  | 0, _ => none
  | fuel + 1, cs =>
    match parseCat fuel cs with
    | none => none
    | some (a, r) =>
      match r with
      | '|' :: r2 =>
        match parseAlt fuel r2 with
        | none => none
        | some (b, r3) => some (.alt a b, r3)
      | _ => some (a, r)

/-- Parse a concatenation of repeated atoms; it stops at the end of the
input, at a closing parenthesis, or at an alternation bar. -/
def parseCat : Nat → List Char → Option (Ast × List Char)
  | 0, _ => none
  | fuel + 1, cs =>
    if cs = [] ∨ cs.head? = some ')' ∨ cs.head? = some '|' then some (.eps, cs)
    else
      match parseFactor fuel cs with
      | none => none
      | some (a, r) =>
        match parseCat fuel r with
        | none => none
        | some (b, r2) => some (.cat a b, r2)

/-- Parse one atom together with its postfix repetition operators. -/
def parseFactor : Nat → List Char → Option (Ast × List Char)
  | 0, _ => none
  | fuel + 1, cs =>
    match parseAtom fuel cs with
    | none => none
    | some (a, r) => some (applyRepeats a r)

/-- Parse one atom: an escaped character, `.`, a parenthesised group, or a
plain literal character.  Bare structural characters in other positions are
outside the supported fragment and fail the parse. -/
def parseAtom : Nat → List Char → Option (Ast × List Char)
  | 0, _ => none
  | _fuel + 1, [] => none
  | fuel + 1, c :: r =>
    if c = '\\' then
      match r with
      | [] => none
      | c2 :: r2 => some (.ch c2, r2)
    else if c = '.' then some (.any, r)
    else if c = '(' then
      match parseAlt fuel r with
      | none => none
      | some (a, r2) =>
        match r2 with
        | ')' :: r3 => some (a, r3)
        | _ => none
    else if isStructural c then none
    else some (.ch c, r)

end

/-- Model of regex compilation: an optional leading `^` anchor followed by
the parsed body.  `none` models a pattern the regex crate rejects or one
outside the supported fragment; the calling code treats both fail-closed. -/
def compile (cs : List Char) : Option (Bool × Ast) :=
  if cs.head? = some '^' then
    match parseAlt (2 * cs.tail.length + 2) cs.tail with
    | some (a, []) => some (true, a)
    | _ => none
  else
    match parseAlt (2 * cs.length + 2) cs with
    | some (a, []) => some (false, a)
    | _ => none

/-- Model of building a regex from `pat` with `RegexBuilder` (with the
case-insensitive flag `ci`) and testing `is_match` against `txt`:
compilation failure yields `false`, an anchored pattern matches at the
start, an unanchored pattern is searched anywhere. -/
def isMatch (ci : Bool) (pat txt : List Char) : Bool :=
  match compile pat with
  | none => false
  | some (true, a) => matchesAtStart ci a txt
  | some (false, a) => rsearch ci a txt

end Rx

/-- Model of the skim fuzzy matcher's match-existence condition: the pattern
occurs as a (possibly non-contiguous) subsequence of the candidate,
character comparison honouring the case flag. -/
def fuzzySubseq (ci : Bool) : List Char → List Char → Bool
  | [], _ => true
  | _ :: _, [] => false
  | p :: ps, t :: ts =>
    if charEq ci t p then fuzzySubseq ci ps ts else fuzzySubseq ci (p :: ps) ts

/-- The four name-filter strategies (`VariableNameFilterType`). -/
inductive VariableNameFilterType : Type where
  | Fuzzy
  | Regex
  | Start
  | Contain
  deriving DecidableEq

/-- The filter specification (`VariableFilter`). -/
structure VariableFilter : Type where
  name_filter_type : VariableNameFilterType
  name_filter_str : String
  name_filter_case_insensitive : Bool
  deriving DecidableEq

/-- Source `VariableFilter::new`: the session default. -/
def VariableFilter.new : VariableFilter :=
  { name_filter_type := .Contain
    name_filter_str := ""
    name_filter_case_insensitive := true }

/-- Source `VariableFilter::name_filter_fn`: compile the specification into a
predicate on names.  An empty pattern short-circuits to constant true;
otherwise the code dispatches on the filter type, building a regex from the
raw pattern (Regex), from `"^"` + the escaped pattern (Start), or from the
escaped pattern (Contain), or querying the fuzzy matcher (Fuzzy). -/
def VariableFilter.name_filter_fn (f : VariableFilter) (var_name : String) : Bool :=
  if f.name_filter_str.isEmpty then true
  else
    match f.name_filter_type with
    | .Fuzzy =>
      fuzzySubseq f.name_filter_case_insensitive f.name_filter_str.data var_name.data
    | .Regex =>
      Rx.isMatch f.name_filter_case_insensitive f.name_filter_str.data var_name.data
    | .Start =>
      Rx.isMatch f.name_filter_case_insensitive
        ('^' :: Rx.escList f.name_filter_str.data) var_name.data
    | .Contain =>
      Rx.isMatch f.name_filter_case_insensitive
        (Rx.escList f.name_filter_str.data) var_name.data

/-- Modelled from the spec: `VariableRef` (defined in `wave_container.rs`,
not part of the shown sources) is the identity of a variable, carrying its
display `name` plus an opaque scope-qualified identity. -/
structure VariableRef : Type where
  name : String
  scope_id : Nat
  deriving DecidableEq

/-- Source `VariableFilter::matching_variables`: keep the variables whose name the
compiled predicate accepts, preserving input order. -/
def VariableFilter.matching_variables (f : VariableFilter) (vars : List VariableRef) :
    List VariableRef :=
  vars.filter (fun vr => f.name_filter_fn vr.name)

namespace NumericSort

/-- A maximal run of digit or of non-digit characters, before numeric
interpretation. -/
inductive RawTok : Type where
  | dig (ds : List Char) : RawTok
  | txt (ts : List Char) : RawTok
  deriving DecidableEq

/-- Extend the run decomposition by one character on the left. -/
def pushChar (c : Char) (ts : List RawTok) : List RawTok :=
  if c.isDigit then
    match ts with
    | .dig ds :: r => .dig (c :: ds) :: r
    | _ => .dig [c] :: ts
  else
    match ts with
    | .txt s :: r => .txt (c :: s) :: r
    | _ => .txt [c] :: ts

/-- Split a string into maximal digit runs and non-digit runs. -/
def rawTokenize (cs : List Char) : List RawTok :=
  cs.foldr pushChar []

/-- Numeric value of a digit run. -/
def digitsToNat (ds : List Char) : Nat :=
  ds.foldl (fun n c => n * 10 + (c.toNat - 48)) 0

/-- A comparison token: a digit run by numeric value, or a literal text
run. -/
inductive Tok : Type where
  | num (n : Nat) : Tok
  | txt (ts : List Char) : Tok
  deriving DecidableEq

/-- Interpret a raw run as a comparison token. -/
def finalizeTok : RawTok → Tok
  | .dig ds => .num (digitsToNat ds)
  | .txt ts => .txt ts

/-- Lexicographic comparison of two lists under a component comparison. -/
def listCmp (f : α → α → Ordering) : List α → List α → Ordering
  | [], [] => .eq
  | [], _ :: _ => .lt
  | _ :: _, [] => .gt
  | a :: as', b :: bs' =>
    match f a b with
    | .eq => listCmp f as' bs'
    | o => o

/-- Compare two characters by code point. -/
def charCmp (c d : Char) : Ordering :=
  compare c.toNat d.toNat

/-- Compare two tokens: numbers by value, texts lexicographically; a number
sorts before a text run. -/
def tokCmp : Tok → Tok → Ordering
  | .num a, .num b => compare a b
  | .num _, .txt _ => .lt
  | .txt _, .num _ => .gt
  | .txt a, .txt b => listCmp charCmp a b

/-- The token decomposition of a string. -/
def strToks (s : String) : List Tok :=
  (rawTokenize s.data).map finalizeTok

/-- Model of `numeric_sort::cmp`: compare the token decompositions
lexicographically, so embedded digit runs are ordered by numeric
magnitude. -/
def cmp (a b : String) : Ordering :=
  listCmp tokCmp (strToks a) (strToks b)

end NumericSort

/-- The boolean "less or equal" induced by the numeric-aware comparator,
used to run the stable sort that models `itertools::sorted_by`. -/
def numericLe (a b : String) : Bool :=
  match NumericSort.cmp a b with
  | .gt => false
  | _ => true

/-- Source `SystemState::filtered_variables`: filter, then sort the matches by
name with the numeric-aware comparator
(`sorted_by(|a, b| numeric_sort::cmp(&a.name, &b.name))`; `sorted_by` is a
stable sort, modelled here by insertion sort on the comparator's
"not greater" relation). -/
def filtered_variables (vars : List VariableRef) (variable_filter : VariableFilter) :
    List VariableRef :=
  List.insertionSort (fun a b => numericLe a.name b.name = true)
    (variable_filter.matching_variables vars)

/-- Modelled from the spec: `ScopeRef` (defined in `wave_container.rs`, not
part of the shown sources) is the identity of a conventional hierarchical
scope. -/
structure ScopeRef : Type where
  id : Nat
  deriving DecidableEq

/-- Modelled from the spec: `TransactionStreamRef` (defined in
`transaction_container.rs`, not part of the shown sources) identifies a
stream or one of its generators; `new_stream` and `new_gen` are its two
constructors used by the code. -/
structure TransactionStreamRef : Type where
  stream_id : Nat
  gen_id : Option Nat
  name : String
  deriving DecidableEq

/-- Source `TransactionStreamRef::new_stream`. -/
def TransactionStreamRef.new_stream (stream_id : Nat) (name : String) :
    TransactionStreamRef :=
  ⟨stream_id, none, name⟩

/-- Source `TransactionStreamRef::new_gen`. -/
def TransactionStreamRef.new_gen (stream_id gen_id : Nat) (name : String) :
    TransactionStreamRef :=
  ⟨stream_id, some gen_id, name⟩

/-- Modelled from the spec: `StreamScopeRef` — the active scope within the
transaction hierarchy: the root, a specific stream, or the empty
sentinel. -/
inductive StreamScopeRef : Type where
  | Root : StreamScopeRef
  | Stream (s : TransactionStreamRef) : StreamScopeRef
  | Empty (label : String) : StreamScopeRef
  deriving DecidableEq

/-- Modelled from the spec: `ScopeType` — the active scope is either a
conventional wave scope or a stream scope, never both. -/
inductive ScopeType : Type where
  | WaveScope (s : ScopeRef) : ScopeType
  | StreamScope (s : StreamScopeRef) : ScopeType
  deriving DecidableEq

/-- Modelled from the spec: a stream of the transaction backend, with its
generator-id listing in backend order (`get_stream(id).generators`). -/
structure TxStream : Type where
  id : Nat
  name : String
  generators : List Nat
  deriving DecidableEq

/-- Modelled from the spec: a generator of the transaction backend. -/
structure Generator : Type where
  id : Nat
  stream_id : Nat
  name : String
  deriving DecidableEq

/-- Modelled from the spec: the transaction backend, exposing
`get_streams`, `get_stream(id)` and `get_generator(id)`. -/
structure TransactionContainer : Type where
  streams : List TxStream
  gens : List Generator

/-- Backend `get_streams`: the top-level stream listing, in backend order. -/
def TransactionContainer.get_streams (tc : TransactionContainer) : List TxStream :=
  tc.streams

/-- Backend `get_stream(id)`. -/
def TransactionContainer.get_stream (tc : TransactionContainer) (id : Nat) :
    Option TxStream :=
  tc.streams.find? (fun st => st.id == id)

/-- Backend `get_generator(id)`. -/
def TransactionContainer.get_generator (tc : TransactionContainer) (id : Nat) :
    Option Generator :=
  tc.gens.find? (fun g => g.id == id)

/-- Modelled from the spec: the conventional waveform backend, exposing
`variables_in_scope`. -/
structure WaveContainer : Type where
  variables_in_scope : ScopeRef → List VariableRef

/-- Modelled from the spec: `DataContainer` — a loaded session is backed by
exactly one of the two container kinds. -/
inductive DataContainer : Type where
  | Waves (wc : WaveContainer) : DataContainer
  | Transactions (tc : TransactionContainer) : DataContainer

/-- Source `DataContainer::as_waves`: the conventional container if that is what
is loaded. -/
def DataContainer.as_waves : DataContainer → Option WaveContainer
  | .Waves wc => some wc
  | .Transactions _ => none

/-- Modelled from the spec: the wave-data part of the session state read by
the drawing code: the loaded container and the active scope. -/
structure WaveData : Type where
  inner : DataContainer
  active_scope : Option ScopeType

/-- The outgoing messages this core can emit (`message.rs` is not part of
the shown sources; the variants are the ones named by the spec). -/
inductive Message : Type where
  | AddVariables (vs : List VariableRef) : Message
  | AddStreamOrGenerator (r : TransactionStreamRef) : Message
  | SetVariableNameFilterCaseInsensitive (b : Bool) : Message
  | SetVariableNameFilterType (t : VariableNameFilterType) : Message
  | SetFilterFocused (b : Bool) : Message
  deriving DecidableEq

/-- Resolve a listed sequence of generator ids through `get_generator`,
each lookup unwrapped: `none` models the panic of `.unwrap()` on a missing
generator. -/
def resolveGens (tc : TransactionContainer) : List Nat → Option (List Generator)
  | [] => some []
  | g :: gs =>
    match tc.get_generator g, resolveGens tc gs with
    | some gen, some gens => some (gen :: gens)
    | _, _ => none

/-- The "add all variables from active scope" action of
`draw_variable_name_filter_edit`, as run when the add button is clicked.
The result is the list of messages pushed; `none` models a panic
(`Option::unwrap` on an inconsistent scope/backend pairing or an
unresolvable backend entity).  Note the asymmetry taken from the code: a
`WaveScope` over a transaction container panics through
`as_waves().unwrap()`, while a `StreamScope` over a waves container takes
the `let .. else return` path and emits nothing. -/
def addAllMessages (waves : Option WaveData) (filter : VariableFilter) :
    Option (List Message) :=
  match waves with
  | none => some []
  | some w =>
    match w.active_scope with
    | none => some []
    | some (.WaveScope active_scope) =>
      match w.inner.as_waves with
      | none => none
      | some wc =>
        some [Message.AddVariables
          (filtered_variables (wc.variables_in_scope active_scope) filter)]
    | some (.StreamScope active_scope) =>
      match w.inner with
      | .Waves _ => some []
      | .Transactions inner =>
        match active_scope with
        | .Root =>
          some (inner.get_streams.map
            (fun stream => Message.AddStreamOrGenerator
              (TransactionStreamRef.new_stream stream.id stream.name)))
        | .Stream s =>
          match inner.get_stream s.stream_id with
          | none => none
          | some st =>
            match resolveGens inner st.generators with
            | none => none
            | some gens =>
              some (gens.map (fun gen => Message.AddStreamOrGenerator
                (TransactionStreamRef.new_gen gen.stream_id gen.id gen.name)))
        | .Empty _ => some []

/-- Modelled from the spec: the per-frame user interactions that the egui
widgets of `draw_variable_name_filter_edit` can report — button clicks, a
type-radio click (from the menu button or the context menu), an edit of the
text field, and focus transitions. -/
structure FilterEditEvents : Type where
  add_clicked : Bool
  case_clicked : Bool
  type_clicked : Option VariableNameFilterType
  clear_clicked : Bool
  text_input : Option String
  gained_focus : Bool
  lost_focus : Bool
  deriving DecidableEq

/-- Source `SystemState::draw_variable_name_filter_edit`: one draw call, given the
session's wave data and filter plus the interactions of this frame.
Returns the filter state as left by the call and the messages pushed, or
`none` when the add-all action panics.  Taken from the code: the add
button, case button, type radios and focus changes only push messages, but
the clear button clears `name_filter_str` in place (it is only enabled
while the string is non-empty) and the text edit mutates
`name_filter_str` in place through `&mut`. -/
def draw_variable_name_filter_edit (waves : Option WaveData) (vf : VariableFilter)
    (ev : FilterEditEvents) : Option (VariableFilter × List Message) :=
  match (if ev.add_clicked then addAllMessages waves vf else some []) with
  | none => none
  | some addMsgs =>
    let msgs1 := addMsgs ++
      (if ev.case_clicked then
        [Message.SetVariableNameFilterCaseInsensitive (!vf.name_filter_case_insensitive)]
      else [])
    let msgs2 := msgs1 ++
      (match ev.type_clicked with
       | some t => [Message.SetVariableNameFilterType t]
       | none => [])
    let vf1 :=
      if ev.clear_clicked && !vf.name_filter_str.isEmpty then
        { vf with name_filter_str := "" }
      else vf
    let vf2 :=
      match ev.text_input with
      | some s => { vf1 with name_filter_str := s }
      | none => vf1
    let msgs3 := msgs2 ++
      (if ev.gained_focus then [Message.SetFilterFocused true] else []) ++
      (if ev.lost_focus then [Message.SetFilterFocused false] else [])
    some (vf2, msgs3)

/-- Does `cs` occur at the start of `t`, characters compared modulo the
case flag?  The specification-side notion of a literal prefix match. -/
def startsWithCI (ci : Bool) : List Char → List Char → Bool
  | [], _ => true
  | _ :: _, [] => false
  | c :: cs, d :: ds => charEq ci d c && startsWithCI ci cs ds

/-- Does `cs` occur contiguously anywhere in `t`, characters compared
modulo the case flag?  The specification-side notion of a literal
substring match. -/
def containsCI (ci : Bool) (cs : List Char) : List Char → Bool
  | [] => startsWithCI ci cs []
  | d :: t => startsWithCI ci cs (d :: t) || containsCI ci cs t

/-- The regex denoting exactly the literal word `cs`. -/
def litAst : List Char → Rx.Ast
  | [] => .eps
  | c :: cs => .cat (.ch c) (litAst cs)

/-- The three properties of an `Ordering`-valued comparison that make
"not greater" a total preorder: antisymmetry under `swap`, substitution of
`eq`-related elements on the left, and transitivity of `lt`. -/
structure LawfulCmp (f : α → α → Ordering) : Prop where
  swap_eq : ∀ a b, f b a = (f a b).swap
  congr_left : ∀ {a b : α} (c : α), f a b = .eq → f a c = f b c
  lt_trans : ∀ {a b c : α}, f a b = .lt → f b c = .lt → f a c = .lt

end Surfer

namespace Surfer

theorem LawfulCmp.congr_right {f : α → α → Ordering} (h : LawfulCmp f)
    {b c : α} (a : α) (hbc : f b c = .eq) : f a b = f a c := by
  have h1 : f b a = f c a := h.congr_left a hbc
  have h2 : (f a b).swap = (f a c).swap := by
    rw [← h.swap_eq a b, ← h.swap_eq a c, h1]
  cases hab : f a b <;> cases hac : f a c <;> rw [hab, hac] at h2 <;>
    first
      | rfl
      | simp [Ordering.swap] at h2

theorem LawfulCmp.le_total {f : α → α → Ordering} (h : LawfulCmp f) (a b : α) :
    f a b ≠ .gt ∨ f b a ≠ .gt := by
  by_cases hab : f a b = .gt
  · right
    rw [h.swap_eq, hab]
    simp [Ordering.swap]
  · left; exact hab

theorem LawfulCmp.le_trans {f : α → α → Ordering} (h : LawfulCmp f) {a b c : α}
    (h1 : f a b ≠ .gt) (h2 : f b c ≠ .gt) : f a c ≠ .gt := by
  cases hab : f a b with
  | gt => exact absurd hab h1
  | eq => rw [h.congr_left c hab]; exact h2
  | lt =>
    cases hbc : f b c with
    | gt => exact absurd hbc h2
    | eq => rw [← h.congr_right a hbc, hab]; simp
    | lt => rw [h.lt_trans hab hbc]; simp

theorem lawful_comap {f : α → α → Ordering} (g : β → α) (hf : LawfulCmp f) :
    LawfulCmp (fun x y => f (g x) (g y)) := by
  refine ⟨fun a b => hf.swap_eq _ _, fun c h => hf.congr_left _ h,
    fun h1 h2 => hf.lt_trans h1 h2⟩

theorem natCmp_lawful : LawfulCmp (fun a b : Nat => compare a b) := by
  refine ⟨?_, ?_, ?_⟩
  · intro a b
    rcases Nat.lt_trichotomy a b with h | h | h
    · rw [Nat.compare_eq_lt.mpr h, Nat.compare_eq_gt.mpr h]; rfl
    · subst h; rw [Nat.compare_eq_eq.mpr rfl]; rfl
    · rw [Nat.compare_eq_gt.mpr h, Nat.compare_eq_lt.mpr h]; rfl
  · intro a b c h
    have := Nat.compare_eq_eq.mp h
    subst this; rfl
  · intro a b c h1 h2
    exact Nat.compare_eq_lt.mpr
      (Nat.lt_trans (Nat.compare_eq_lt.mp h1) (Nat.compare_eq_lt.mp h2))

theorem charCmp_lawful : LawfulCmp NumericSort.charCmp :=
  lawful_comap Char.toNat natCmp_lawful

namespace NumericSort

theorem listCmp_swap {f : α → α → Ordering} (hf : LawfulCmp f) :
    ∀ as bs : List α, listCmp f bs as = (listCmp f as bs).swap := by
  intro as
  induction as with
  | nil => intro bs; cases bs <;> rfl
  | cons a as ih =>
    intro bs
    cases bs with
    | nil => rfl
    | cons b bs =>
      simp only [listCmp, hf.swap_eq a b]
      cases hab : f a b with
      | lt => rfl
      | gt => rfl
      | eq => simpa using ih bs

theorem listCmp_congr_left {f : α → α → Ordering} (hf : LawfulCmp f) :
    ∀ as bs cs : List α, listCmp f as bs = .eq →
      listCmp f as cs = listCmp f bs cs := by
  intro as
  induction as with
  | nil =>
    intro bs cs h
    cases bs with
    | nil => rfl
    | cons b bs => simp [listCmp] at h
  | cons a as ih =>
    intro bs cs h
    cases bs with
    | nil => simp [listCmp] at h
    | cons b bs =>
      simp only [listCmp] at h
      cases hab : f a b with
      | lt => rw [hab] at h; simp at h
      | gt => rw [hab] at h; simp at h
      | eq =>
        rw [hab] at h
        cases cs with
        | nil => rfl
        | cons c cs =>
          simp only [listCmp, hf.congr_left c hab]
          cases f b c with
          | lt => rfl
          | gt => rfl
          | eq => exact ih bs cs h

theorem listCmp_lt_trans {f : α → α → Ordering} (hf : LawfulCmp f) :
    ∀ as bs cs : List α, listCmp f as bs = .lt → listCmp f bs cs = .lt →
      listCmp f as cs = .lt := by
  intro as
  induction as with
  | nil =>
    intro bs cs h1 h2
    cases bs with
    | nil => simp [listCmp] at h1
    | cons b bs =>
      cases cs with
      | nil => simp [listCmp] at h2
      | cons c cs => rfl
  | cons a as ih =>
    intro bs cs h1 h2
    cases bs with
    | nil => simp [listCmp] at h1
    | cons b bs =>
      cases cs with
      | nil => simp [listCmp] at h2
      | cons c cs =>
        simp only [listCmp] at h1 h2 ⊢
        cases hab : f a b with
        | gt => rw [hab] at h1; simp at h1
        | lt =>
          cases hbc : f b c with
          | gt => rw [hbc] at h2; simp at h2
          | lt => rw [hf.lt_trans hab hbc]
          | eq => rw [← hf.congr_right a hbc, hab]
        | eq =>
          rw [hab] at h1
          cases hbc : f b c with
          | gt => rw [hbc] at h2; simp at h2
          | lt => rw [hf.congr_left c hab, hbc]
          | eq =>
            rw [hbc] at h2
            rw [hf.congr_left c hab, hbc]
            exact ih bs cs h1 h2

theorem listCmp_lawful {f : α → α → Ordering} (hf : LawfulCmp f) :
    LawfulCmp (listCmp f) :=
  ⟨fun as bs => listCmp_swap hf as bs,
   fun c h => listCmp_congr_left hf _ _ c h,
   fun h1 h2 => listCmp_lt_trans hf _ _ _ h1 h2⟩

theorem tokCmp_lawful : LawfulCmp tokCmp := by
  have hc := listCmp_lawful charCmp_lawful
  refine ⟨?_, ?_, ?_⟩
  · intro a b
    cases a <;> cases b <;>
      simp only [tokCmp] <;>
      first
        | rfl
        | exact natCmp_lawful.swap_eq _ _
        | exact hc.swap_eq _ _
  · intro a b c h
    cases a <;> cases b <;> simp only [tokCmp] at h <;> try exact absurd h (by simp)
    case num.num x y =>
      have := Nat.compare_eq_eq.mp h
      subst this; rfl
    case txt.txt x y =>
      cases c with
      | num z => rfl
      | txt z => exact hc.congr_left z h
  · intro a b c h1 h2
    cases a <;> cases b <;> cases c <;>
      simp only [tokCmp] at h1 h2 ⊢ <;>
      first
        | rfl
        | simp at h1
        | simp at h2
        | exact natCmp_lawful.lt_trans h1 h2
        | exact hc.lt_trans h1 h2

theorem cmp_lawful : LawfulCmp cmp :=
  lawful_comap strToks (listCmp_lawful tokCmp_lawful)

end NumericSort

theorem numericLe_eq_true_iff (a b : String) :
    numericLe a b = true ↔ NumericSort.cmp a b ≠ .gt := by
  unfold numericLe
  cases NumericSort.cmp a b <;> simp

theorem numericLe_total (a b : String) :
    numericLe a b = true ∨ numericLe b a = true := by
  rw [numericLe_eq_true_iff, numericLe_eq_true_iff]
  exact NumericSort.cmp_lawful.le_total a b

theorem numericLe_trans {a b c : String} (h1 : numericLe a b = true)
    (h2 : numericLe b c = true) : numericLe a c = true := by
  rw [numericLe_eq_true_iff] at h1 h2 ⊢
  exact NumericSort.cmp_lawful.le_trans h1 h2

/-- C1: for every input sequence of variables and every filter
specification, `filtered_variables` returns exactly the variables accepted
by the compiled predicate (a permutation of `matching_variables`), sorted
by name under the numeric-aware comparator (which orders embedded digit
runs by numeric magnitude); in particular, with the empty default filter
the inputs named `sig10`, `sig2`, `sig1` come back as
`sig1`, `sig2`, `sig10`. -/
theorem filtered_variables_sorted_matching (vars : List VariableRef)
    (f : VariableFilter) :
    (filtered_variables vars f).Perm (f.matching_variables vars) ∧
    List.Sorted (fun a b : VariableRef => numericLe a.name b.name = true)
      (filtered_variables vars f) ∧
    filtered_variables
        [⟨"sig10", 0⟩, ⟨"sig2", 1⟩, ⟨"sig1", 2⟩] VariableFilter.new
      = [⟨"sig1", 2⟩, ⟨"sig2", 1⟩, ⟨"sig10", 0⟩] := by
  haveI : IsTotal VariableRef (fun a b => numericLe a.name b.name = true) :=
    ⟨fun a b => numericLe_total a.name b.name⟩
  haveI : IsTrans VariableRef (fun a b => numericLe a.name b.name = true) :=
    ⟨fun _ _ _ h1 h2 => numericLe_trans h1 h2⟩
  exact ⟨List.perm_insertionSort _ _, List.sorted_insertionSort _ _, by decide⟩

/-- C2: a filter specification with an empty pattern string compiles to the
constant-true predicate, whatever the type and case flag, so
`matching_variables` returns its input unchanged. -/
theorem matching_variables_empty_filter (f : VariableFilter)
    (vars : List VariableRef) (h : f.name_filter_str = "") :
    f.matching_variables vars = vars := by
  have hall : ∀ name, f.name_filter_fn name = true := by
    intro name
    unfold VariableFilter.name_filter_fn
    rw [h]
    rfl
  unfold VariableFilter.matching_variables
  exact List.filter_eq_self.mpr fun a _ => hall a.name

/-- Witness for C2 at a concrete input. -/
theorem matching_variables_empty_filter_witness :
    VariableFilter.matching_variables ⟨.Regex, "", false⟩ [⟨"a", 0⟩, ⟨"b", 1⟩]
      = [⟨"a", 0⟩, ⟨"b", 1⟩] :=
  matching_variables_empty_filter ⟨.Regex, "", false⟩ [⟨"a", 0⟩, ⟨"b", 1⟩] rfl

theorem isMeta_of_isStructural {c : Char} (h : Rx.isStructural c = true) :
    Rx.isMeta c = true := by
  unfold Rx.isStructural at h
  unfold Rx.isMeta
  simp only [Bool.or_eq_true, beq_iff_eq] at h ⊢
  tauto

theorem matchesAtStart_nil (ci : Bool) (a : Rx.Ast) :
    Rx.matchesAtStart ci a [] = Rx.nullable a := by
  simp [Rx.matchesAtStart]

theorem matchesAtStart_cons (ci : Bool) (a : Rx.Ast) (d : Char) (t : List Char) :
    Rx.matchesAtStart ci a (d :: t)
      = (Rx.nullable a || Rx.matchesAtStart ci (Rx.deriv ci a d) t) := rfl

theorem rsearch_nil (ci : Bool) (a : Rx.Ast) :
    Rx.rsearch ci a [] = Rx.matchesAtStart ci a [] := by
  simp [Rx.rsearch]

theorem rsearch_cons (ci : Bool) (a : Rx.Ast) (d : Char) (t : List Char) :
    Rx.rsearch ci a (d :: t)
      = (Rx.matchesAtStart ci a (d :: t) || Rx.rsearch ci a t) := rfl

theorem matchesAtStart_alt (ci : Bool) :
    ∀ (t : List Char) (a b : Rx.Ast),
      Rx.matchesAtStart ci (.alt a b) t
        = (Rx.matchesAtStart ci a t || Rx.matchesAtStart ci b t) := by
  intro t
  induction t with
  | nil =>
    intro a b
    rw [matchesAtStart_nil, matchesAtStart_nil, matchesAtStart_nil]
    simp [Rx.nullable]
  | cons d t ih =>
    intro a b
    rw [matchesAtStart_cons, matchesAtStart_cons, matchesAtStart_cons]
    simp only [Rx.nullable, Rx.deriv, ih]
    cases Rx.nullable a <;> cases Rx.nullable b <;>
      cases Rx.matchesAtStart ci (Rx.deriv ci a d) t <;>
      cases Rx.matchesAtStart ci (Rx.deriv ci b d) t <;> rfl

theorem matchesAtStart_cat_emp (ci : Bool) :
    ∀ (t : List Char) (a : Rx.Ast),
      Rx.matchesAtStart ci (.cat .emp a) t = false := by
  intro t
  induction t with
  | nil =>
    intro a
    rw [matchesAtStart_nil]
    simp [Rx.nullable]
  | cons d t ih =>
    intro a
    rw [matchesAtStart_cons]
    simp [Rx.nullable, Rx.deriv, ih]

theorem matchesAtStart_cat_eps (ci : Bool) (t : List Char) (a : Rx.Ast) :
    Rx.matchesAtStart ci (.cat .eps a) t = Rx.matchesAtStart ci a t := by
  cases t with
  | nil =>
    rw [matchesAtStart_nil, matchesAtStart_nil]
    simp [Rx.nullable]
  | cons d t =>
    rw [matchesAtStart_cons, matchesAtStart_cons]
    simp [Rx.nullable, Rx.deriv, matchesAtStart_alt, matchesAtStart_cat_emp]

theorem matchesAtStart_lit (ci : Bool) :
    ∀ (cs t : List Char),
      Rx.matchesAtStart ci (litAst cs) t = startsWithCI ci cs t := by
  intro cs
  induction cs with
  | nil =>
    intro t
    cases t with
    | nil => rw [matchesAtStart_nil]; simp [litAst, Rx.nullable, startsWithCI]
    | cons d t => rw [matchesAtStart_cons]; simp [litAst, Rx.nullable, startsWithCI]
  | cons c cs ih =>
    intro t
    cases t with
    | nil =>
      rw [matchesAtStart_nil]
      simp [litAst, Rx.nullable, startsWithCI]
    | cons d t =>
      rw [matchesAtStart_cons]
      by_cases h : charEq ci d c = true
      · simp [litAst, Rx.nullable, Rx.deriv, h, matchesAtStart_cat_eps, ih,
          startsWithCI]
      · have h' : charEq ci d c = false := by
          cases hc : charEq ci d c
          · rfl
          · exact absurd hc h
        simp [litAst, Rx.nullable, Rx.deriv, h', matchesAtStart_cat_emp,
          startsWithCI]

theorem rsearch_lit (ci : Bool) (cs : List Char) :
    ∀ t, Rx.rsearch ci (litAst cs) t = containsCI ci cs t := by
  intro t
  induction t with
  | nil => rw [rsearch_nil, matchesAtStart_lit]; rfl
  | cons d t ih => rw [rsearch_cons, matchesAtStart_lit, ih]; rfl

theorem applyRepeats_notRep (a : Rx.Ast) {t : List Char}
    (h : ∀ c r, t = c :: r → c ≠ '*' ∧ c ≠ '+' ∧ c ≠ '?') :
    Rx.applyRepeats a t = (a, t) := by
  cases t with
  | nil => rfl
  | cons c r =>
    obtain ⟨h1, h2, h3⟩ := h c r rfl
    unfold Rx.applyRepeats
    rw [if_neg h1, if_neg h2, if_neg h3]

theorem applyRepeats_escList (a : Rx.Ast) (cs : List Char) :
    Rx.applyRepeats a (Rx.escList cs) = (a, Rx.escList cs) := by
  apply applyRepeats_notRep
  intro c r hcr
  cases cs with
  | nil => simp [Rx.escList] at hcr
  | cons c0 cs0 =>
    have hrw : Rx.escList (c0 :: cs0) = Rx.escChar c0 ++ Rx.escList cs0 := rfl
    rw [hrw] at hcr
    unfold Rx.escChar at hcr
    by_cases hm : Rx.isMeta c0 = true
    · rw [if_pos hm] at hcr
      have hc : '\\' = c := by injection hcr
      subst hc
      refine ⟨by decide, by decide, by decide⟩
    · rw [if_neg hm] at hcr
      have hc : c0 = c := by injection hcr
      subst hc
      refine ⟨?_, ?_, ?_⟩ <;> intro he <;> rw [he] at hm <;> exact hm (by decide)

theorem parseAtom_esc (k : Nat) (c : Char) (r : List Char) :
    Rx.parseAtom (k + 1) (Rx.escChar c ++ r) = some (.ch c, r) := by
  unfold Rx.escChar
  by_cases hm : Rx.isMeta c = true
  · rw [if_pos hm]
    rfl
  · rw [if_neg hm]
    have h1 : c ≠ '\\' := by intro hc; rw [hc] at hm; exact hm (by decide)
    have h2 : c ≠ '.' := by intro hc; rw [hc] at hm; exact hm (by decide)
    have h3 : c ≠ '(' := by intro hc; rw [hc] at hm; exact hm (by decide)
    have h4 : Rx.isStructural c = false := by
      cases hs : Rx.isStructural c
      · rfl
      · exact absurd (isMeta_of_isStructural hs) hm
    show Rx.parseAtom (k + 1) (c :: r) = some (.ch c, r)
    unfold Rx.parseAtom
    rw [if_neg h1, if_neg h2, if_neg h3, h4]
    simp

theorem parseFactor_esc (k : Nat) (c : Char) (cs : List Char) :
    Rx.parseFactor (k + 2) (Rx.escList (c :: cs)) = some (.ch c, Rx.escList cs) := by
  have hrw : Rx.escList (c :: cs) = Rx.escChar c ++ Rx.escList cs := rfl
  rw [hrw]
  unfold Rx.parseFactor
  rw [parseAtom_esc k c (Rx.escList cs)]
  simp [applyRepeats_escList]

theorem parseCat_escList :
    ∀ (p : List Char) (fuel : Nat), 2 * p.length < fuel →
      Rx.parseCat fuel (Rx.escList p) = some (litAst p, []) := by
  intro p
  induction p with
  | nil =>
    intro fuel h
    obtain ⟨k, rfl⟩ : ∃ k, fuel = k + 1 := ⟨fuel - 1, by omega⟩
    rfl
  | cons c cs ih =>
    intro fuel h
    rw [List.length_cons] at h
    obtain ⟨k, rfl⟩ : ∃ k, fuel = k + 3 := ⟨fuel - 3, by omega⟩
    have hshape : ∃ d r, Rx.escList (c :: cs) = d :: r ∧ d ≠ ')' ∧ d ≠ '|' := by
      by_cases hm : Rx.isMeta c = true
      · exact ⟨'\\', c :: Rx.escList cs, by simp [Rx.escList, Rx.escChar, hm],
          by decide, by decide⟩
      · refine ⟨c, Rx.escList cs, by simp [Rx.escList, Rx.escChar, hm], ?_, ?_⟩ <;>
          intro he <;> rw [he] at hm <;> exact hm (by decide)
    obtain ⟨d, r, hdr, hd1, hd2⟩ := hshape
    have hcond : ¬(Rx.escList (c :: cs) = []
        ∨ (Rx.escList (c :: cs)).head? = some ')'
        ∨ (Rx.escList (c :: cs)).head? = some '|') := by
      rintro (hx | hx | hx)
      · rw [hdr] at hx; exact absurd hx (by simp)
      · rw [hdr] at hx; simp at hx; exact hd1 hx
      · rw [hdr] at hx; simp at hx; exact hd2 hx
    have hlen : 2 * cs.length < k + 2 := by omega
    unfold Rx.parseCat
    rw [if_neg hcond, parseFactor_esc k c cs]
    show (match Rx.parseCat (k + 2) (Rx.escList cs) with
      | none => none
      | some (b, r2) => some (Rx.Ast.cat (Rx.Ast.ch c) b, r2))
        = some (litAst (c :: cs), [])
    rw [ih (k + 2) hlen]
    rfl

theorem length_escList (p : List Char) : p.length ≤ (Rx.escList p).length := by
  induction p with
  | nil => simp [Rx.escList]
  | cons c cs ih =>
    show _ ≤ (Rx.escChar c ++ Rx.escList cs).length
    rw [List.length_append]
    unfold Rx.escChar
    by_cases hm : Rx.isMeta c = true <;> simp [hm] <;> omega

theorem parseAlt_escList (p : List Char) (fuel : Nat)
    (h : 2 * p.length + 1 < fuel) :
    Rx.parseAlt fuel (Rx.escList p) = some (litAst p, []) := by
  obtain ⟨k, rfl⟩ : ∃ k, fuel = k + 1 := ⟨fuel - 1, by omega⟩
  have hc := parseCat_escList p k (by omega)
  unfold Rx.parseAlt
  rw [hc]

theorem compile_escList (p : List Char) :
    Rx.compile (Rx.escList p) = some (false, litAst p) := by
  have hne : ¬((Rx.escList p).head? = some '^') := by
    cases p with
    | nil => simp [Rx.escList]
    | cons c cs =>
      show ¬((Rx.escChar c ++ Rx.escList cs).head? = some '^')
      unfold Rx.escChar
      by_cases hm : Rx.isMeta c = true
      · rw [if_pos hm]
        simp only [List.cons_append, List.head?_cons]
        decide
      · rw [if_neg hm]
        simp only [List.singleton_append, List.head?_cons, Option.some.injEq]
        intro he
        rw [he] at hm
        exact hm (by decide)
  unfold Rx.compile
  rw [if_neg hne,
    parseAlt_escList p (2 * (Rx.escList p).length + 2)
      (by have := length_escList p; omega)]

theorem compile_anchored_escList (p : List Char) :
    Rx.compile ('^' :: Rx.escList p) = some (true, litAst p) := by
  unfold Rx.compile
  rw [if_pos (show ('^' :: Rx.escList p).head? = some '^' from rfl)]
  simp only [List.tail_cons]
  rw [parseAlt_escList p (2 * (Rx.escList p).length + 2)
    (by have := length_escList p; omega)]

/-- C10: `matching_variables` returns a sublist of its input: every
returned variable occurs in the input, the input's relative order is
preserved, and no element is returned more often than it occurs. -/
theorem matching_variables_sublist (f : VariableFilter)
    (vars : List VariableRef) :
    List.Sublist (f.matching_variables vars) vars ∧
    (∀ v ∈ f.matching_variables vars, v ∈ vars) ∧
    (∀ v : VariableRef,
      (f.matching_variables vars).count v ≤ vars.count v) := by
  have hs : List.Sublist (f.matching_variables vars) vars := by
    unfold VariableFilter.matching_variables
    exact List.filter_sublist vars
  exact ⟨hs, fun v hv => hs.mem hv, fun v => hs.count_le v⟩

theorem isEmpty_false_of_ne {s : String} (hs : s ≠ "") : s.isEmpty = false := by
  cases hb : s.isEmpty
  · rfl
  · exact absurd ((String.isEmpty_iff s).mp hb) hs

theorem name_filter_fn_contain (s name : String) (ci : Bool) (hs : s ≠ "") :
    VariableFilter.name_filter_fn ⟨.Contain, s, ci⟩ name
      = containsCI ci s.data name.data := by
  have he := isEmpty_false_of_ne hs
  unfold VariableFilter.name_filter_fn
  simp only [he, Bool.false_eq_true, if_false]
  show Rx.isMatch ci (Rx.escList s.data) name.data = _
  unfold Rx.isMatch
  rw [compile_escList s.data]
  exact rsearch_lit ci s.data name.data

theorem name_filter_fn_start (s name : String) (ci : Bool) (hs : s ≠ "") :
    VariableFilter.name_filter_fn ⟨.Start, s, ci⟩ name
      = startsWithCI ci s.data name.data := by
  have he := isEmpty_false_of_ne hs
  unfold VariableFilter.name_filter_fn
  simp only [he, Bool.false_eq_true, if_false]
  show Rx.isMatch ci ('^' :: Rx.escList s.data) name.data = _
  unfold Rx.isMatch
  rw [compile_anchored_escList s.data]
  exact matchesAtStart_lit ci s.data name.data

theorem charEq_false (d c : Char) : charEq false d c = (d == c) := rfl

theorem charEq_true (d c : Char) :
    charEq true d c = (d.toLower == c.toLower) := rfl

theorem startsWithCI_false_iff :
    ∀ (cs t : List Char),
      (startsWithCI false cs t = true ↔ ∃ suf, t = cs ++ suf) := by
  intro cs
  induction cs with
  | nil =>
    intro t
    simp [startsWithCI]
  | cons c cs ih =>
    intro t
    cases t with
    | nil => simp [startsWithCI]
    | cons d t =>
      simp only [startsWithCI, charEq_false, Bool.and_eq_true, beq_iff_eq, ih,
        List.cons_append, List.cons.injEq]
      exact exists_and_left.symm

theorem containsCI_false_iff (cs : List Char) :
    ∀ t : List Char,
      (containsCI false cs t = true ↔ ∃ pre suf, t = pre ++ cs ++ suf) := by
  intro t
  induction t with
  | nil =>
    simp only [containsCI, startsWithCI_false_iff]
    constructor
    · rintro ⟨suf, h⟩
      exact ⟨[], suf, h⟩
    · rintro ⟨pre, suf, h⟩
      rw [List.append_assoc] at h
      obtain ⟨h1, h2⟩ := List.append_eq_nil.mp h.symm
      exact ⟨suf, h2.symm⟩
  | cons d t ih =>
    simp only [containsCI, Bool.or_eq_true, startsWithCI_false_iff, ih]
    constructor
    · rintro (⟨suf, h⟩ | ⟨pre, suf, h⟩)
      · exact ⟨[], suf, by simpa using h⟩
      · exact ⟨d :: pre, suf, by simp [h]⟩
    · rintro ⟨pre, suf, h⟩
      cases pre with
      | nil => exact Or.inl ⟨suf, by simpa using h⟩
      | cons p pre =>
        right
        simp only [List.cons_append, List.cons.injEq] at h
        exact ⟨pre, suf, h.2⟩

theorem startsWithCI_true_fold :
    ∀ (cs t : List Char),
      startsWithCI true cs t
        = startsWithCI false (cs.map Char.toLower) (t.map Char.toLower) := by
  intro cs
  induction cs with
  | nil => intro t; simp [startsWithCI]
  | cons c cs ih =>
    intro t
    cases t with
    | nil => simp [startsWithCI]
    | cons d t =>
      simp only [List.map_cons, startsWithCI, charEq_true, charEq_false, ih]

theorem containsCI_true_fold (cs : List Char) :
    ∀ t : List Char,
      containsCI true cs t
        = containsCI false (cs.map Char.toLower) (t.map Char.toLower) := by
  intro t
  induction t with
  | nil => simp [containsCI, startsWithCI_true_fold]
  | cons d t ih =>
    simp only [containsCI, ih, startsWithCI_true_fold, List.map_cons]

/-- C3: for the Contain and Start filter types, a non-empty pattern is
matched literally (the code escapes every regex meta character before
compiling): Contain accepts a name exactly when the pattern occurs as a
contiguous literal substring (modulo case folding when the flag is set),
Start exactly when it occurs as a literal prefix; in particular the
pattern `a.b*` matches the name `xa.b*y`, which contains the literal
characters `a.b*`, and matches neither `aXb*` nor `aaab`. -/
theorem contain_start_match_literally (s name : String) (ci : Bool)
    (hs : s ≠ "") :
    (VariableFilter.name_filter_fn ⟨.Contain, s, ci⟩ name = true ↔
      ∃ pre suf, foldCase ci name.data = pre ++ foldCase ci s.data ++ suf) ∧
    (VariableFilter.name_filter_fn ⟨.Start, s, ci⟩ name = true ↔
      ∃ suf, foldCase ci name.data = foldCase ci s.data ++ suf) ∧
    VariableFilter.name_filter_fn ⟨.Contain, "a.b*", false⟩ "xa.b*y" = true ∧
    VariableFilter.name_filter_fn ⟨.Contain, "a.b*", false⟩ "aXb*" = false ∧
    VariableFilter.name_filter_fn ⟨.Contain, "a.b*", false⟩ "aaab" = false := by
  refine ⟨?_, ?_, by decide, by decide, by decide⟩
  · rw [name_filter_fn_contain s name ci hs]
    cases ci
    · simp only [foldCase, Bool.false_eq_true, if_false]
      exact containsCI_false_iff s.data name.data
    · rw [containsCI_true_fold]
      simp only [foldCase, if_pos rfl]
      exact containsCI_false_iff (s.data.map Char.toLower)
        (name.data.map Char.toLower)
  · rw [name_filter_fn_start s name ci hs]
    cases ci
    · simp only [foldCase, Bool.false_eq_true, if_false]
      exact startsWithCI_false_iff s.data name.data
    · rw [startsWithCI_true_fold]
      simp only [foldCase, if_pos rfl]
      exact startsWithCI_false_iff (s.data.map Char.toLower)
        (name.data.map Char.toLower)

/-- Witness for C3: the hypothesis `s ≠ ""` discharged at the concrete
pattern `a.b*`, extracting the concrete match of the claim. -/
theorem contain_start_match_literally_witness :
    VariableFilter.name_filter_fn ⟨.Contain, "a.b*", false⟩ "xa.b*y" = true :=
  (contain_start_match_literally "a.b*" "xa.b*y" false (by decide)).2.2.1

/-- C4: a Regex-type filter whose non-empty pattern fails to compile
produces the constant-false predicate, so `matching_variables` yields the
empty list on every candidate set (and no error escapes: the function is
total). -/
theorem regex_compile_failure_matches_nothing (f : VariableFilter)
    (vars : List VariableRef) (ht : f.name_filter_type = .Regex)
    (hs : f.name_filter_str ≠ "")
    (hc : Rx.compile f.name_filter_str.data = none) :
    f.matching_variables vars = [] := by
  have he := isEmpty_false_of_ne hs
  have hall : ∀ name : String, f.name_filter_fn name = false := by
    intro name
    unfold VariableFilter.name_filter_fn
    rw [ht]
    simp only [he, Bool.false_eq_true, if_false]
    unfold Rx.isMatch
    rw [hc]
  unfold VariableFilter.matching_variables
  have hfn : (fun vr : VariableRef => f.name_filter_fn vr.name)
      = fun _ => false :=
    funext fun vr => hall vr.name
  rw [hfn]
  exact List.filter_false vars

/-- Witness for C4 at the unbalanced pattern `(` of the claim. -/
theorem regex_compile_failure_matches_nothing_witness :
    VariableFilter.matching_variables ⟨.Regex, "(", false⟩ [⟨"a", 0⟩, ⟨"b", 1⟩]
      = [] :=
  regex_compile_failure_matches_nothing ⟨.Regex, "(", false⟩
    [⟨"a", 0⟩, ⟨"b", 1⟩] rfl (by decide) (by decide)

/-- C8: the case-insensitivity flag is honoured by every filter type: for
each of Contain, Start, Regex and Fuzzy, the pattern `CLK` accepts the
candidate `clk_en` when the flag is set and rejects it when it is not. -/
theorem case_insensitive_flag_honoured :
    VariableFilter.name_filter_fn ⟨.Contain, "CLK", true⟩ "clk_en" = true ∧
    VariableFilter.name_filter_fn ⟨.Contain, "CLK", false⟩ "clk_en" = false ∧
    VariableFilter.name_filter_fn ⟨.Start, "CLK", true⟩ "clk_en" = true ∧
    VariableFilter.name_filter_fn ⟨.Start, "CLK", false⟩ "clk_en" = false ∧
    VariableFilter.name_filter_fn ⟨.Regex, "CLK", true⟩ "clk_en" = true ∧
    VariableFilter.name_filter_fn ⟨.Regex, "CLK", false⟩ "clk_en" = false ∧
    VariableFilter.name_filter_fn ⟨.Fuzzy, "CLK", true⟩ "clk_en" = true ∧
    VariableFilter.name_filter_fn ⟨.Fuzzy, "CLK", false⟩ "clk_en" = false := by
  refine ⟨?_, ?_, ?_, ?_, ?_, ?_, ?_, ?_⟩ <;> decide

/-- C9: for every pattern and case flag, a name accepted by the Start
predicate is accepted by the Contain predicate built from the same
specification: a literal prefix occurrence is a literal substring
occurrence. -/
theorem start_match_implies_contain_match (s name : String) (ci : Bool)
    (h : VariableFilter.name_filter_fn ⟨.Start, s, ci⟩ name = true) :
    VariableFilter.name_filter_fn ⟨.Contain, s, ci⟩ name = true := by
  by_cases hs : s = ""
  · subst hs
    rfl
  · rw [name_filter_fn_start s name ci hs] at h
    rw [name_filter_fn_contain s name ci hs]
    cases hnd : name.data with
    | nil =>
      rw [hnd] at h
      simpa [containsCI] using h
    | cons d t =>
      rw [hnd] at h
      simp [containsCI, h]

/-- Witness for C9: the implication applied at a concrete accepted
prefix. -/
theorem start_match_implies_contain_match_witness :
    VariableFilter.name_filter_fn ⟨.Contain, "cl", false⟩ "clk" = true :=
  start_match_implies_contain_match "cl" "clk" false (by decide)

/-- C5 counterexample: an active `StreamScope` over a conventional-waves
container does NOT fail fast — the `let Transactions(..) = .. else return`
path returns normally with no messages, the opposite of the claimed
abort (which the model renders as `none`). -/
theorem add_all_stream_scope_over_waves_returns :
    addAllMessages
        (some ⟨.Waves ⟨fun _ => []⟩, some (.StreamScope .Root)⟩)
        VariableFilter.new
      = some [] := rfl

/-- C5 as amended: the two mismatch directions are handled asymmetrically:
an active `WaveScope` over a transaction container panics through
`as_waves().unwrap()` (modelled by `none`), while an active `StreamScope`
over a waves container silently returns, emitting no message, for every
stream-scope variant and every container. -/
theorem add_all_scope_mismatch (wc : WaveContainer) (tc : TransactionContainer)
    (scope : ScopeRef) (ss : StreamScopeRef) (f : VariableFilter) :
    addAllMessages (some ⟨.Transactions tc, some (.WaveScope scope)⟩) f = none ∧
    addAllMessages (some ⟨.Waves wc, some (.StreamScope ss)⟩) f = some [] := by
  constructor
  · rfl
  · cases ss <;> rfl

theorem resolveGens_length (tc : TransactionContainer) :
    ∀ (l : List Nat) (gens : List Generator),
      resolveGens tc l = some gens → gens.length = l.length := by
  intro l
  induction l with
  | nil =>
    intro gens h
    unfold resolveGens at h
    cases h
    rfl
  | cons g gs ih =>
    intro gens h
    unfold resolveGens at h
    cases hg : tc.get_generator g with
    | none =>
      rw [hg] at h
      simp at h
    | some gen =>
      cases hr : resolveGens tc gs with
      | none =>
        rw [hg, hr] at h
        simp at h
      | some gens' =>
        rw [hg, hr] at h
        simp only [Option.some.injEq] at h
        subst h
        simp [ih gens' hr]

/-- C6: with an active `StreamScope` over the transaction container, the
"add all" action emits exactly one `AddStreamOrGenerator` message per
generator of the active stream, in the backend's stream-to-generator
listing order (variant `Stream`); one message per top-level stream in
backend order (variant `Root`); and no message at all (variant `Empty`). -/
theorem add_all_stream_messages (tc : TransactionContainer)
    (s : TransactionStreamRef) (st : TxStream) (gens : List Generator)
    (f : VariableFilter) (lbl : String)
    (h1 : tc.get_stream s.stream_id = some st)
    (h2 : resolveGens tc st.generators = some gens) :
    addAllMessages
        (some ⟨.Transactions tc, some (.StreamScope (.Stream s))⟩) f
      = some (gens.map fun gen => Message.AddStreamOrGenerator
          (TransactionStreamRef.new_gen gen.stream_id gen.id gen.name)) ∧
    gens.length = st.generators.length ∧
    addAllMessages (some ⟨.Transactions tc, some (.StreamScope .Root)⟩) f
      = some (tc.get_streams.map fun stream => Message.AddStreamOrGenerator
          (TransactionStreamRef.new_stream stream.id stream.name)) ∧
    addAllMessages
        (some ⟨.Transactions tc, some (.StreamScope (.Empty lbl))⟩) f
      = some [] := by
  refine ⟨?_, resolveGens_length tc st.generators gens h2, rfl, rfl⟩
  simp only [addAllMessages, h1, h2]

/-- Witness for C6: a stream with three generators produces exactly the
three generator messages, in listing order. -/
theorem add_all_stream_messages_witness :
    addAllMessages
        (some ⟨.Transactions
            ⟨[⟨7, "s", [1, 2, 3]⟩],
             [⟨1, 7, "g1"⟩, ⟨2, 7, "g2"⟩, ⟨3, 7, "g3"⟩]⟩,
          some (.StreamScope (.Stream ⟨7, none, "s"⟩))⟩)
        VariableFilter.new
      = some [
          .AddStreamOrGenerator ⟨7, some 1, "g1"⟩,
          .AddStreamOrGenerator ⟨7, some 2, "g2"⟩,
          .AddStreamOrGenerator ⟨7, some 3, "g3"⟩] :=
  (add_all_stream_messages
      ⟨[⟨7, "s", [1, 2, 3]⟩], [⟨1, 7, "g1"⟩, ⟨2, 7, "g2"⟩, ⟨3, 7, "g3"⟩]⟩
      ⟨7, none, "s"⟩ ⟨7, "s", [1, 2, 3]⟩
      [⟨1, 7, "g1"⟩, ⟨2, 7, "g2"⟩, ⟨3, 7, "g3"⟩]
      VariableFilter.new "" (by decide) (by decide)).1

/-- C7 counterexample: the claim that a draw call never mutates the shared
`VariableFilter` fails on the clear button, which clears
`name_filter_str` in place during rendering: with a non-empty filter and a
clear click, the draw call returns an altered filter and no message. -/
theorem draw_filter_edit_clear_mutates :
    draw_variable_name_filter_edit none ⟨.Contain, "abc", true⟩
        ⟨false, false, none, true, none, false, false⟩
      = some (⟨.Contain, "", true⟩, []) ∧
    (⟨.Contain, "", true⟩ : VariableFilter) ≠ ⟨.Contain, "abc", true⟩ :=
  ⟨rfl, by decide⟩

/-- C7 as amended: during a draw call the filter type, the case flag, the
add-all action and the focus transitions are captured only as messages —
the drawing code never mutates `name_filter_type` or
`name_filter_case_insensitive` — but `name_filter_str` is mutated in place
by exactly two interactions, the clear button and the text edit; in a
frame with neither of those, the whole filter is returned unchanged. -/
theorem draw_filter_edit_mutation (waves : Option WaveData)
    (vf : VariableFilter) (ev : FilterEditEvents) (vf' : VariableFilter)
    (msgs : List Message)
    (h : draw_variable_name_filter_edit waves vf ev = some (vf', msgs)) :
    vf'.name_filter_type = vf.name_filter_type ∧
    vf'.name_filter_case_insensitive = vf.name_filter_case_insensitive ∧
    (ev.clear_clicked = false → ev.text_input = none → vf' = vf) := by
  unfold draw_variable_name_filter_edit at h
  cases ha : (if ev.add_clicked then addAllMessages waves vf else some []) with
  | none => rw [ha] at h; exact absurd h (by simp)
  | some addMsgs =>
    rw [ha] at h
    simp only [Option.some.injEq, Prod.mk.injEq] at h
    obtain ⟨hvf, -⟩ := h
    subst hvf
    cases hti : ev.text_input with
    | some snew =>
      refine ⟨?_, ?_, ?_⟩
      · dsimp only
        split <;> rfl
      · dsimp only
        split <;> rfl
      · intro _ habs
        exact absurd habs (by simp)
    | none =>
      refine ⟨?_, ?_, ?_⟩
      · dsimp only
        split <;> rfl
      · dsimp only
        split <;> rfl
      · intro hcl _
        dsimp only
        simp [hcl]

/-- Witness for C7's amended theorem: a frame whose only interaction is the
case-toggle click leaves the filter untouched and only queues a message. -/
theorem draw_filter_edit_mutation_witness :
    VariableFilter.new.name_filter_type
        = VariableFilter.new.name_filter_type ∧
    VariableFilter.new.name_filter_case_insensitive
        = VariableFilter.new.name_filter_case_insensitive ∧
    (false = false → (none : Option String) = none →
      VariableFilter.new = VariableFilter.new) :=
  draw_filter_edit_mutation none VariableFilter.new
    ⟨false, true, none, false, none, false, false⟩ VariableFilter.new
    [Message.SetVariableNameFilterCaseInsensitive false] rfl

end Surfer
